import Mathlib

/-!
Verification development for the word-counter web application
(`src/App.tsx`).  The pure core of the application — the
tokenizer/counter `countWordsAndCharacters`, the frequency analyzer
`analyzeRepeatedWords`, the HTML text reducer `parseHTML` — is embedded
directly as Lean functions on `List Char`.  The effectful parts — the
PDF extractor with its OCR fallback, the OCR controller and the
webpage-fetch orchestrator — are embedded as deterministic functions
over an explicit environment describing the outcomes of the external
calls (PDF library, recognition engine, network transports); each such
embedding additionally returns the observable trace (OCR invocations,
progress values, engine acquire/release actions, transports attempted)
so that temporal and resource claims can be stated.

Strings are modelled as `List Char` (one element per UTF-16 unit of the
JavaScript string; characters outside the BMP, where one code point is
two JavaScript code units, are not modelled).  JavaScript numbers used
for progress/percentage are modelled as `ℚ`.
-/

/-- The ECMAScript `\s` character class (also the set trimmed by
`String.prototype.trim`): tab, LF, VT, FF, CR, space, NBSP, and the
Unicode space separators, line/paragraph separators and BOM. -/
def isJsSpace (c : Char) : Bool :=
  let n := c.toNat
  n == 0x9 || n == 0xA || n == 0xB || n == 0xC || n == 0xD || n == 0x20 ||
  n == 0xA0 || n == 0x1680 || (decide (0x2000 ≤ n) && decide (n ≤ 0x200A)) ||
  n == 0x2028 || n == 0x2029 || n == 0x202F || n == 0x205F || n == 0x3000 ||
  n == 0xFEFF

/-- JavaScript `String.prototype.trim`: drop leading and trailing
whitespace. -/
def jsTrim (l : List Char) : List Char :=
  (l.dropWhile isJsSpace).rdropWhile isJsSpace

/-- JavaScript `str.split(/\s+/)`: the pieces of the string between
maximal whitespace runs.  A leading (resp. trailing) whitespace run
produces an empty first (resp. last) piece, and the split of the empty
string is `[""]`, exactly as in JavaScript.  (A whitespace character
followed by further whitespace belongs to the same separator run and
contributes no new piece.) -/
def consToken (c : Char) (r : List (List Char)) : List (List Char) :=
  match r with
  | [] => [[c]]
  | t :: ts => (c :: t) :: ts

def jsSplitWs (l : List Char) : List (List Char) :=
  match l with
  | [] => [[]]
  | [c] => if isJsSpace c then [[], []] else [[c]]
  | c :: d :: rest =>
    if isJsSpace c then
      if isJsSpace d then jsSplitWs (d :: rest) else [] :: jsSplitWs (d :: rest)
    else consToken c (jsSplitWs (d :: rest))

/-- Specification-side tokenizer: the maximal runs of non-whitespace
characters of the text, in order.  These are exactly the non-empty
tokens obtained by splitting on runs of whitespace; leading and
trailing whitespace contribute no tokens. -/
def nonSpaceTokens (l : List Char) : List (List Char) :=
  match l with
  | [] => []
  | c :: rest =>
    if isJsSpace c then
      nonSpaceTokens rest
    else
      (c :: rest).takeWhile (fun d => !isJsSpace d) ::
        nonSpaceTokens ((c :: rest).dropWhile (fun d => !isJsSpace d))
termination_by l.length
decreasing_by
  · simp
  · simp only [List.length_cons, List.dropWhile_cons, Bool.not_eq_eq_eq_not,
      Bool.not_true] at *
    rename_i h
    simp only [h, Bool.not_false, if_true]
    exact Nat.lt_succ_of_le ((rest.dropWhile_sublist _).length_le)

/-- The `CountResults` record of `App.tsx` (the optional frequency
analysis field is handled separately by the caller). -/
structure CountResults where
  wordCount : Nat
  charCountExcludingSpaces : Nat
  charCountIncludingSpaces : Nat
deriving Repr, DecidableEq

/-- `countWordsAndCharacters` from `App.tsx`.  The source reads
`const textContent = textToCount || text`, so an *empty* explicit
argument (`''` is falsy in JavaScript) falls back to the component
state `text`, exactly like an omitted argument; `stateText` models that
component state.  Returns `none` when the source calls
`setResults(null)` and `some r` when it calls `setResults(r)`. -/
def countWordsAndCharacters (textToCount : Option (List Char))
    (stateText : List Char) : Option CountResults :=
  let textContent :=
    match textToCount with
    | some t => if t = [] then stateText else t
    | none => stateText
  if jsTrim textContent = [] then none
  else
    let words := (jsSplitWs (jsTrim textContent)).filter
      (fun w => decide (0 < w.length))
    some
      { wordCount := words.length
        charCountExcludingSpaces :=
          (textContent.filter (fun c => !isJsSpace c)).length
        charCountIncludingSpaces := textContent.length }

theorem jsSplitWs_nil : jsSplitWs [] = [[]] :=
  rfl

theorem jsSplitWs_singleton_space {c : Char} (hc : isJsSpace c = true) :
    jsSplitWs [c] = [[], []] := by
  rw [jsSplitWs.eq_def]
  simp [hc]

theorem jsSplitWs_cons_space_space {c d : Char} (r : List Char)
    (hc : isJsSpace c = true) (hd : isJsSpace d = true) :
    jsSplitWs (c :: d :: r) = jsSplitWs (d :: r) := by
  conv_lhs => rw [jsSplitWs.eq_def]
  simp [hc, hd]

theorem jsSplitWs_cons_space_nonspace {c d : Char} (r : List Char)
    (hc : isJsSpace c = true) (hd : isJsSpace d = false) :
    jsSplitWs (c :: d :: r) = [] :: jsSplitWs (d :: r) := by
  conv_lhs => rw [jsSplitWs.eq_def]
  simp [hc, hd]

theorem jsSplitWs_cons_nonspace {c : Char} {rest t : List Char}
    {ts : List (List Char)} (hc : isJsSpace c = false)
    (h : jsSplitWs rest = t :: ts) :
    jsSplitWs (c :: rest) = (c :: t) :: ts := by
  cases rest with
  | nil =>
    have h0 : ([[]] : List (List Char)) = t :: ts := h
    have ht : t = [] := (List.cons.injEq _ _ _ _ ▸ h0).1.symm
    have hts : ts = [] := (List.cons.injEq _ _ _ _ ▸ h0).2.symm
    subst ht
    subst hts
    rw [jsSplitWs.eq_def]
    simp [hc]
  | cons d r =>
    rw [jsSplitWs.eq_def]
    simp [hc, h, consToken]

set_option maxHeartbeats 2000000 in
theorem nonSpaceTokens_nil : nonSpaceTokens [] = [] :=
  nonSpaceTokens.eq_1

set_option maxHeartbeats 2000000 in
theorem nonSpaceTokens_cons (c : Char) (rest : List Char) :
    nonSpaceTokens (c :: rest) =
      if isJsSpace c = true then nonSpaceTokens rest
      else
        (c :: rest).takeWhile (fun d => !isJsSpace d) ::
          nonSpaceTokens ((c :: rest).dropWhile (fun d => !isJsSpace d)) :=
  nonSpaceTokens.eq_2 c rest

theorem nonSpaceTokens_nil_of_all_space {t : List Char}
    (h : ∀ c ∈ t, isJsSpace c = true) : nonSpaceTokens t = [] := by
  induction t with
  | nil => exact nonSpaceTokens_nil
  | cons c r ih =>
    rw [nonSpaceTokens_cons]
    simp only [h c (List.mem_cons_self c r), if_true]
    exact ih fun d hd => h d (List.mem_cons_of_mem c hd)

theorem nonSpaceTokens_dropWhile (l : List Char) :
    nonSpaceTokens (l.dropWhile isJsSpace) = nonSpaceTokens l := by
  induction l with
  | nil => simp
  | cons c r ih =>
    rw [List.dropWhile_cons]
    by_cases h : isJsSpace c = true
    · rw [if_pos h, ih, nonSpaceTokens_cons, if_pos h]
    · rw [if_neg h]

theorem takeWhile_nonspace_eq_nil {t : List Char}
    (h : ∀ c ∈ t, isJsSpace c = true) :
    t.takeWhile (fun d => !isJsSpace d) = [] := by
  cases t with
  | nil => rfl
  | cons c r =>
    rw [List.takeWhile_cons]
    simp [h c (List.mem_cons_self c r)]

theorem dropWhile_nonspace_eq_self {t : List Char}
    (h : ∀ c ∈ t, isJsSpace c = true) :
    t.dropWhile (fun d => !isJsSpace d) = t := by
  cases t with
  | nil => rfl
  | cons c r =>
    rw [List.dropWhile_cons]
    simp [h c (List.mem_cons_self c r)]

theorem nonSpaceTokens_append_space_aux {t : List Char}
    (ht : ∀ c ∈ t, isJsSpace c = true) :
    ∀ (n : Nat) (a : List Char), a.length ≤ n →
      nonSpaceTokens (a ++ t) = nonSpaceTokens a := by
  intro n
  induction n with
  | zero =>
    intro a ha
    have h0 : a = [] := List.length_eq_zero.mp (Nat.le_zero.mp ha)
    subst h0
    rw [List.nil_append, nonSpaceTokens_nil, nonSpaceTokens_nil_of_all_space ht]
  | succ n ih =>
    intro a ha
    match a with
    | [] =>
      rw [List.nil_append, nonSpaceTokens_nil, nonSpaceTokens_nil_of_all_space ht]
    | c :: a' =>
      rw [List.cons_append, nonSpaceTokens_cons, nonSpaceTokens_cons]
      by_cases hc : isJsSpace c = true
      · rw [if_pos hc, if_pos hc]
        exact ih a' (Nat.le_of_succ_le_succ ha)
      · rw [if_neg hc, if_neg hc, ← List.cons_append]
        have htake : ((c :: a') ++ t).takeWhile (fun d => !isJsSpace d) =
            (c :: a').takeWhile (fun d => !isJsSpace d) := by
          rw [List.takeWhile_append]
          split
          · rename_i hlen
            rw [takeWhile_nonspace_eq_nil ht, List.append_nil]
            exact ((List.takeWhile_prefix _).eq_of_length hlen).symm
          · rfl
        have hdrop : ((c :: a') ++ t).dropWhile (fun d => !isJsSpace d) =
            if ((c :: a').dropWhile (fun d => !isJsSpace d)).isEmpty then t
            else (c :: a').dropWhile (fun d => !isJsSpace d) ++ t := by
          rw [List.dropWhile_append, dropWhile_nonspace_eq_self ht]
        rw [htake, hdrop]
        by_cases he : ((c :: a').dropWhile (fun d => !isJsSpace d)).isEmpty
        · rw [if_pos he]
          rw [List.isEmpty_iff] at he
          rw [he, nonSpaceTokens_nil, nonSpaceTokens_nil_of_all_space ht]
        · rw [if_neg he]
          congr 1
          have hlt : ((c :: a').dropWhile (fun d => !isJsSpace d)).length ≤ n := by
            have hcf : isJsSpace c = false := by
              cases hx : isJsSpace c
              · rfl
              · exact absurd hx hc
            have hns : (!isJsSpace c) = true := by rw [hcf]; rfl
            rw [List.dropWhile_cons, if_pos hns]
            exact Nat.le_trans ((a'.dropWhile_sublist _).length_le)
              (Nat.le_of_succ_le_succ ha)
          exact ih _ hlt

theorem nonSpaceTokens_append_space {t : List Char}
    (ht : ∀ c ∈ t, isJsSpace c = true) (a : List Char) :
    nonSpaceTokens (a ++ t) = nonSpaceTokens a :=
  nonSpaceTokens_append_space_aux ht a.length a (Nat.le_refl _)

theorem rdropWhile_append_rtakeWhile (p : Char → Bool) (l : List Char) :
    l.rdropWhile p ++ l.rtakeWhile p = l := by
  rw [List.rdropWhile, List.rtakeWhile, ← List.reverse_append,
    List.takeWhile_append_dropWhile, List.reverse_reverse]

theorem nonSpaceTokens_rdropWhile (l : List Char) :
    nonSpaceTokens (l.rdropWhile isJsSpace) = nonSpaceTokens l := by
  conv_rhs => rw [← rdropWhile_append_rtakeWhile isJsSpace l]
  exact (nonSpaceTokens_append_space
    (fun c hc => List.mem_rtakeWhile_imp hc) _).symm

theorem nonSpaceTokens_jsTrim (l : List Char) :
    nonSpaceTokens (jsTrim l) = nonSpaceTokens l := by
  rw [jsTrim, nonSpaceTokens_rdropWhile, nonSpaceTokens_dropWhile]

theorem bool_eq_false {b : Bool} (h : ¬ b = true) : b = false := by
  cases b
  · rfl
  · exact absurd rfl h

theorem jsSplitWs_filter_spec_aux (l : List Char) :
    (jsSplitWs l).filter (fun w => decide (0 < w.length)) = nonSpaceTokens l ∧
    ∃ ts, jsSplitWs l = (l.takeWhile (fun d => !isJsSpace d)) :: ts ∧
      ts.filter (fun w => decide (0 < w.length)) =
        nonSpaceTokens (l.dropWhile (fun d => !isJsSpace d)) := by
  induction l with
  | nil =>
    refine ⟨by rw [jsSplitWs_nil, nonSpaceTokens_nil]; rfl, [],
      by rw [jsSplitWs_nil]; rfl,
      by simp only [List.dropWhile_nil, nonSpaceTokens_nil, List.filter_nil]⟩
  | cons c rest ih =>
    obtain ⟨ih1, ts', hts', hfil'⟩ := ih
    by_cases hc : isJsSpace c = true
    · have hcns : (!isJsSpace c) = false := by rw [hc]; rfl
      have htake0 : (c :: rest).takeWhile (fun d => !isJsSpace d) = [] := by
        rw [List.takeWhile_cons, hcns]; rfl
      have hdrop0 : (c :: rest).dropWhile (fun d => !isJsSpace d) = c :: rest := by
        rw [List.dropWhile_cons, hcns]; rfl
      have hrhs : nonSpaceTokens (c :: rest) = nonSpaceTokens rest := by
        rw [nonSpaceTokens_cons, if_pos hc]
      cases rest with
      | nil =>
        refine ⟨?_, [[]], ?_, ?_⟩
        · rw [jsSplitWs_singleton_space hc, hrhs, nonSpaceTokens_nil]; rfl
        · rw [jsSplitWs_singleton_space hc, htake0]
        · rw [hdrop0, hrhs, nonSpaceTokens_nil]; rfl
      | cons d r' =>
        by_cases hd : isJsSpace d = true
        · have hsplit := jsSplitWs_cons_space_space r' hc hd
          have hdns : (!isJsSpace d) = false := by rw [hd]; rfl
          have htaked : (d :: r').takeWhile (fun e => !isJsSpace e) = [] := by
            rw [List.takeWhile_cons, hdns]; rfl
          have hdropd : (d :: r').dropWhile (fun e => !isJsSpace e) = d :: r' := by
            rw [List.dropWhile_cons, hdns]; rfl
          refine ⟨by rw [hsplit, ih1, hrhs], ts', ?_, ?_⟩
          · rw [hsplit, hts', htaked, htake0]
          · rw [hfil', hdropd, hdrop0, hrhs]
        · have hdf : isJsSpace d = false := bool_eq_false hd
          have hsplit := jsSplitWs_cons_space_nonspace r' hc hdf
          refine ⟨?_, jsSplitWs (d :: r'), ?_, ?_⟩
          · rw [hsplit, List.filter_cons_of_neg (by decide), ih1, hrhs]
          · rw [hsplit, htake0]
          · rw [ih1, hdrop0, hrhs]
    · have hcf : isJsSpace c = false := bool_eq_false hc
      have hns : (!isJsSpace c) = true := by rw [hcf]; rfl
      have hsplit : jsSplitWs (c :: rest) =
          (c :: rest.takeWhile (fun d => !isJsSpace d)) :: ts' :=
        jsSplitWs_cons_nonspace hcf hts'
      have htake : (c :: rest).takeWhile (fun d => !isJsSpace d) =
          c :: rest.takeWhile (fun d => !isJsSpace d) := by
        rw [List.takeWhile_cons, hns]; rfl
      have hdrop : (c :: rest).dropWhile (fun d => !isJsSpace d) =
          rest.dropWhile (fun d => !isJsSpace d) := by
        rw [List.dropWhile_cons, hns]; rfl
      refine ⟨?_, ts', by rw [hsplit, htake], by rw [hfil', hdrop]⟩
      have hpos : List.filter (fun w => decide (0 < w.length))
          ((c :: List.takeWhile (fun d => !isJsSpace d) rest) :: ts') =
          (c :: List.takeWhile (fun d => !isJsSpace d) rest) ::
            List.filter (fun w => decide (0 < w.length)) ts' := by
        simp
      rw [hsplit, hpos,
        hfil', nonSpaceTokens_cons, if_neg hc, htake, hdrop]

theorem jsSplitWs_filter_eq_nonSpaceTokens (l : List Char) :
    (jsSplitWs l).filter (fun w => decide (0 < w.length)) = nonSpaceTokens l :=
  (jsSplitWs_filter_spec_aux l).1

theorem mem_dropWhile_of_not {c : Char} {l : List Char}
    (hc : c ∈ l) (hs : isJsSpace c = false) :
    c ∈ l.dropWhile isJsSpace := by
  induction l with
  | nil => cases hc
  | cons d r ih =>
    rw [List.dropWhile_cons]
    by_cases hd : isJsSpace d = true
    · rw [if_pos hd]
      rcases List.mem_cons.mp hc with h | h
      · subst h; rw [hd] at hs; cases hs
      · exact ih h
    · rw [if_neg hd]; exact hc

theorem jsTrim_ne_nil {c : Char} {l : List Char}
    (hc : c ∈ l) (hs : isJsSpace c = false) : jsTrim l ≠ [] := by
  intro h
  rw [jsTrim, List.rdropWhile_eq_nil_iff] at h
  have := h c (mem_dropWhile_of_not hc hs)
  rw [hs] at this
  cases this

theorem countWordsAndCharacters_eq {s : List Char} (stateText : List Char)
    (hsne : s ≠ []) (htne : jsTrim s ≠ []) :
    countWordsAndCharacters (some s) stateText =
      some
        { wordCount := ((jsSplitWs (jsTrim s)).filter
            (fun w => decide (0 < w.length))).length
          charCountExcludingSpaces :=
            (s.filter (fun c => !isJsSpace c)).length
          charCountIncludingSpaces := s.length } := by
  simp only [countWordsAndCharacters, if_neg hsne, if_neg htne]

/-- C1: for every text containing at least one non-whitespace character,
`countWordsAndCharacters` produces a result whose `wordCount` is the
number of non-empty tokens obtained by splitting the text on runs of
whitespace (leading and trailing whitespace contribute no tokens),
whose `charCountIncludingSpaces` is the raw length of the text, and
whose `charCountExcludingSpaces` is the length of the text with every
whitespace character removed — hence at most
`charCountIncludingSpaces`. -/
theorem c1_wordCount_charCounts (s stateText : List Char) (c : Char)
    (hc : c ∈ s) (hcs : isJsSpace c = false) :
    ∃ r, countWordsAndCharacters (some s) stateText = some r ∧
      r.wordCount = (nonSpaceTokens s).length ∧
      r.charCountIncludingSpaces = s.length ∧
      r.charCountExcludingSpaces = (s.filter (fun d => !isJsSpace d)).length ∧
      r.charCountExcludingSpaces ≤ r.charCountIncludingSpaces := by
  have hsne : s ≠ [] := by
    intro h
    subst h
    cases hc
  have htne : jsTrim s ≠ [] := jsTrim_ne_nil hc hcs
  refine ⟨_, countWordsAndCharacters_eq stateText hsne htne, ?_, rfl, rfl, ?_⟩
  · show ((jsSplitWs (jsTrim s)).filter (fun w => decide (0 < w.length))).length =
      (nonSpaceTokens s).length
    rw [jsSplitWs_filter_eq_nonSpaceTokens, nonSpaceTokens_jsTrim]
  · exact s.length_filter_le _

/-- Witness for C1 at the text `"a b  c"` from the spec examples. -/
theorem c1_wordCount_charCounts_witness :
    ∃ r, countWordsAndCharacters (some ("a b  c".toList)) [] = some r ∧
      r.wordCount = (nonSpaceTokens ("a b  c".toList)).length ∧
      r.charCountIncludingSpaces = ("a b  c".toList).length ∧
      r.charCountExcludingSpaces =
        (("a b  c".toList).filter (fun d => !isJsSpace d)).length ∧
      r.charCountExcludingSpaces ≤ r.charCountIncludingSpaces :=
  c1_wordCount_charCounts ("a b  c".toList) [] 'a' (by decide) (by decide)

/-- C8 counterexample: the claim says `count("")` always yields an
absent result, but the source computes
`const textContent = textToCount || text`, and `''` is falsy, so an
explicit empty argument falls back to the component state; with state
text `"ab"` the call returns a populated result object, not `null`. -/
theorem c8_counterexample :
    countWordsAndCharacters (some []) ("ab".toList) =
      some { wordCount := 1, charCountExcludingSpaces := 2,
             charCountIncludingSpaces := 2 } := by
  rfl

/-- C8 (amended): a whitespace-only *non-empty* text always yields the
absent result; the *empty* text yields the absent result exactly when
the fallback component state text is itself blank (because `'' || text`
falls back to `text`), and in particular in the initial empty state. -/
theorem c8_blank_input_yields_absent :
    (∀ (s stateText : List Char), s ≠ [] → jsTrim s = [] →
      countWordsAndCharacters (some s) stateText = none) ∧
    (∀ stateText : List Char, jsTrim stateText = [] →
      countWordsAndCharacters (some []) stateText = none) := by
  constructor
  · intro s stateText hs ht
    simp only [countWordsAndCharacters, if_neg hs, if_pos ht]
  · intro stateText ht
    simp [countWordsAndCharacters, ht]

/-- Witness for amended C8: `count("   ")` and `count("")` (in the
initial empty state) both yield the absent result. -/
theorem c8_blank_input_yields_absent_witness :
    countWordsAndCharacters (some ("   ".toList)) [] = none ∧
    countWordsAndCharacters (some []) [] = none :=
  ⟨c8_blank_input_yields_absent.1 ("   ".toList) [] (by decide) (by decide),
   c8_blank_input_yields_absent.2 [] (by decide)⟩

/-- The `\w` class of the punctuation-stripping regex
`replace(/[^\w\s]/g, '')`: ASCII letters, digits and underscore. -/
def isWordChar (c : Char) : Bool :=
  (decide ('a' ≤ c) && decide (c ≤ 'z')) ||
  (decide ('A' ≤ c) && decide (c ≤ 'Z')) ||
  (decide ('0' ≤ c) && decide (c ≤ '9')) || c == '_'

/-- The stop-word set of `analyzeRepeatedWords` in `App.tsx`, in source
order. -/
def stopWords : List (List Char) :=
  (["the", "and", "or", "but", "in", "on", "at", "to", "for", "of", "with",
    "by", "is", "are", "was", "were", "be", "been", "have", "has", "had",
    "do", "does", "did", "will", "would", "could", "should", "may", "might",
    "must", "can", "a", "an", "this", "that", "these", "those", "i", "you",
    "he", "she", "it", "we", "they", "me", "him", "her", "us", "them", "my",
    "your", "his", "its", "our", "their", "myself", "yourself", "himself",
    "herself", "itself", "ourselves", "yourselves", "themselves", "what",
    "which", "who", "when", "where", "why", "how", "all", "any", "both",
    "each", "few", "more", "most", "other", "some", "such", "no", "nor",
    "not", "only", "own", "same", "so", "than", "too", "very"] :
    List String).map String.toList

/-- The `WordFrequency` record of `App.tsx`; the JavaScript float
`percentage` is modelled as a rational. -/
structure WordFrequency where
  word : List Char
  count : Nat
  percentage : ℚ
deriving Repr, DecidableEq

/-- The `RepeatedWordsAnalysis` record of `App.tsx`
(`mostRepeatedWord: WordFrequency | null` becomes an `Option`). -/
structure RepeatedWordsAnalysis where
  topWords : List WordFrequency
  totalUniqueWords : Nat
  mostRepeatedWord : Option WordFrequency
  stopWordsFiltered : Bool
deriving Repr, DecidableEq

/-- The `words` local of `analyzeRepeatedWords`: lowercase the text
(`Char.toLower` models `toLowerCase`, which only affects letters),
strip punctuation keeping word characters and whitespace, split on
whitespace runs, keep tokens of length greater than one. -/
def wordsOf (text : List Char) : List (List Char) :=
  (jsSplitWs ((text.map Char.toLower).filter
    (fun c => isWordChar c || isJsSpace c))).filter
    (fun w => decide (1 < w.length))

/-- The `filteredWords` local: remove stop words when the flag is set. -/
def consideredWords (text : List Char) (filterStopWords : Bool) :
    List (List Char) :=
  if filterStopWords then
    (wordsOf text).filter (fun w => !decide (w ∈ stopWords))
  else wordsOf text

/-- One step of the `frequency` map construction:
`frequency.set(word, (frequency.get(word) || 0) + 1)` on a JavaScript
`Map`, i.e. an insertion-ordered association list. -/
def bump (m : List (List Char × Nat)) (w : List Char) :
    List (List Char × Nat) :=
  match m with
  | [] => [(w, 1)]
  | (x, n) :: rest =>
    if x = w then (x, n + 1) :: rest else (x, n) :: bump rest w

/-- The `frequency` map: entries in first-insertion order, as a
JavaScript `Map` iterates them. -/
def buildFreq (ws : List (List Char)) : List (List Char × Nat) :=
  ws.foldl bump []

/-- Stable insertion of an entry into a list that is sorted by count
descending: the entry goes after every existing entry of greater or
equal count.  `sort((a, b) => b.count - a.count)` in the source is a
stable sort (required of `Array.prototype.sort` by the ECMAScript
specification), and the stable descending-by-count ordering of a list
is unique, so this insertion sort computes exactly the source's sort
result. -/
def insertDesc (x : WordFrequency) : List WordFrequency → List WordFrequency
  | [] => [x]
  | y :: ys => if y.count < x.count then x :: y :: ys else y :: insertDesc x ys

def sortByCountDesc (l : List WordFrequency) : List WordFrequency :=
  l.foldl (fun acc x => insertDesc x acc) []

/-- The `wordFrequencies` list before sorting: one entry per frequency
map entry, in map (first-encounter) order, with
`percentage = totalWords > 0 ? (count / totalWords) * 100 : 0`. -/
def rawFreqs (text : List Char) (filterStopWords : Bool) :
    List WordFrequency :=
  let totalWords := (consideredWords text filterStopWords).length
  (buildFreq (consideredWords text filterStopWords)).map (fun p =>
    { word := p.1, count := p.2,
      percentage :=
        if 0 < totalWords then ((p.2 : ℚ) / (totalWords : ℚ)) * 100
        else 0 })

/-- The sorted `wordFrequencies` list. -/
def sortedFreqs (text : List Char) (filterStopWords : Bool) :
    List WordFrequency :=
  sortByCountDesc (rawFreqs text filterStopWords)

/-- `analyzeRepeatedWords` from `App.tsx`. -/
def analyzeRepeatedWords (text : List Char) (filterStopWords : Bool) :
    RepeatedWordsAnalysis :=
  if jsTrim text = [] then
    { topWords := [], totalUniqueWords := 0, mostRepeatedWord := none,
      stopWordsFiltered := filterStopWords }
  else
    { topWords := (sortedFreqs text filterStopWords).take 15
      totalUniqueWords := (buildFreq (consideredWords text filterStopWords)).length
      mostRepeatedWord := (sortedFreqs text filterStopWords).head?
      stopWordsFiltered := filterStopWords }

/-- Specification-side order of first encounters: each distinct token
of `ws`, listed in the order its first occurrence appears. -/
def firstEncounterOrder (ws : List (List Char)) : List (List Char) :=
  ws.foldl (fun acc w => if w ∈ acc then acc else acc ++ [w]) []

theorem mem_insertDesc {x z : WordFrequency} {l : List WordFrequency} :
    z ∈ insertDesc x l ↔ z = x ∨ z ∈ l := by
  induction l with
  | nil => simp [insertDesc]
  | cons y ys ih =>
    rw [insertDesc]
    by_cases h : y.count < x.count
    · rw [if_pos h]
      simp
    · rw [if_neg h]
      simp only [List.mem_cons, ih]
      tauto

theorem insertDesc_sorted {x : WordFrequency} {l : List WordFrequency}
    (hl : l.Pairwise (fun a b => b.count ≤ a.count)) :
    (insertDesc x l).Pairwise (fun a b => b.count ≤ a.count) := by
  induction l with
  | nil => simp [insertDesc]
  | cons y ys ih =>
    obtain ⟨hy, hys⟩ := List.pairwise_cons.mp hl
    rw [insertDesc]
    by_cases h : y.count < x.count
    · rw [if_pos h]
      refine List.pairwise_cons.mpr ⟨?_, hl⟩
      intro z hz
      rcases List.mem_cons.mp hz with hzy | hzys
      · subst hzy
        exact Nat.le_of_lt h
      · exact Nat.le_trans (hy z hzys) (Nat.le_of_lt h)
    · rw [if_neg h]
      refine List.pairwise_cons.mpr ⟨?_, ih hys⟩
      intro z hz
      rcases mem_insertDesc.mp hz with hzx | hzys
      · subst hzx
        exact Nat.le_of_not_lt h
      · exact hy z hzys

theorem filter_count_eq_nil {k : Nat} {l : List WordFrequency}
    {y : WordFrequency} (hl : (y :: l).Pairwise (fun a b => b.count ≤ a.count))
    (hy : y.count < k) :
    (y :: l).filter (fun e => decide (e.count = k)) = [] := by
  rw [List.filter_eq_nil_iff]
  intro e he
  rcases List.mem_cons.mp he with h | h
  · subst h
    simp only [decide_eq_true_eq]
    omega
  · have := (List.pairwise_cons.mp hl).1 e h
    simp only [decide_eq_true_eq]
    omega

theorem insertDesc_filter {x : WordFrequency} {l : List WordFrequency}
    (k : Nat) (hl : l.Pairwise (fun a b => b.count ≤ a.count)) :
    (insertDesc x l).filter (fun e => decide (e.count = k)) =
      if x.count = k then
        l.filter (fun e => decide (e.count = k)) ++ [x]
      else l.filter (fun e => decide (e.count = k)) := by
  induction l with
  | nil =>
    rw [insertDesc]
    by_cases hx : x.count = k
    · rw [if_pos hx]
      simp [hx]
    · rw [if_neg hx]
      simp [hx]
  | cons y ys ih =>
    obtain ⟨hy, hys⟩ := List.pairwise_cons.mp hl
    rw [insertDesc]
    by_cases h : y.count < x.count
    · rw [if_pos h]
      by_cases hx : x.count = k
      · rw [if_pos hx]
        have hnil : (y :: ys).filter (fun e => decide (e.count = k)) = [] :=
          filter_count_eq_nil hl (by omega)
        rw [hnil, List.nil_append,
          List.filter_cons_of_pos (by simp [hx]), hnil]
      · rw [if_neg hx]
        rw [List.filter_cons_of_neg (by simp [hx])]
    · rw [if_neg h]
      by_cases hyk : y.count = k
      · rw [List.filter_cons_of_pos (by simp [hyk]),
          List.filter_cons_of_pos (by simp [hyk]), ih hys]
        by_cases hx : x.count = k
        · rw [if_pos hx, if_pos hx, List.cons_append]
        · rw [if_neg hx, if_neg hx]
      · rw [List.filter_cons_of_neg (by simp [hyk]),
          List.filter_cons_of_neg (by simp [hyk]), ih hys]

theorem sortByCountDesc_foldl_spec (l : List WordFrequency) :
    ∀ acc, acc.Pairwise (fun a b => b.count ≤ a.count) →
      (l.foldl (fun acc x => insertDesc x acc) acc).Pairwise
        (fun a b => b.count ≤ a.count) ∧
      ∀ k, (l.foldl (fun acc x => insertDesc x acc) acc).filter
          (fun e => decide (e.count = k)) =
        acc.filter (fun e => decide (e.count = k)) ++
          l.filter (fun e => decide (e.count = k)) := by
  induction l with
  | nil =>
    intro acc hacc
    exact ⟨hacc, fun k => by simp⟩
  | cons x xs ih =>
    intro acc hacc
    obtain ⟨hs, hf⟩ := ih (insertDesc x acc) (insertDesc_sorted hacc)
    refine ⟨hs, fun k => ?_⟩
    rw [List.foldl_cons, hf k, insertDesc_filter k hacc]
    by_cases hx : x.count = k
    · rw [if_pos hx, List.filter_cons_of_pos (by simp [hx]),
        List.append_assoc, List.singleton_append]
    · rw [if_neg hx, List.filter_cons_of_neg (by simp [hx])]

theorem sortByCountDesc_sorted (l : List WordFrequency) :
    (sortByCountDesc l).Pairwise (fun a b => b.count ≤ a.count) :=
  (sortByCountDesc_foldl_spec l [] List.Pairwise.nil).1

theorem sortByCountDesc_filter (l : List WordFrequency) (k : Nat) :
    (sortByCountDesc l).filter (fun e => decide (e.count = k)) =
      l.filter (fun e => decide (e.count = k)) := by
  have h := (sortByCountDesc_foldl_spec l [] List.Pairwise.nil).2 k
  rw [sortByCountDesc, h, List.filter_nil, List.nil_append]

theorem mem_sortByCountDesc {l : List WordFrequency} {e : WordFrequency} :
    e ∈ sortByCountDesc l ↔ e ∈ l := by
  have h := sortByCountDesc_filter l e.count
  constructor
  · intro hm
    have h1 : e ∈ (sortByCountDesc l).filter
        (fun x => decide (x.count = e.count)) :=
      List.mem_filter.mpr ⟨hm, by simp⟩
    rw [h] at h1
    exact (List.mem_filter.mp h1).1
  · intro hm
    have h1 : e ∈ l.filter (fun x => decide (x.count = e.count)) :=
      List.mem_filter.mpr ⟨hm, by simp⟩
    rw [← h] at h1
    exact (List.mem_filter.mp h1).1

theorem bump_keys (m : List (List Char × Nat)) (w : List Char) :
    (bump m w).map Prod.fst =
      if w ∈ m.map Prod.fst then m.map Prod.fst
      else m.map Prod.fst ++ [w] := by
  induction m with
  | nil => simp [bump]
  | cons p rest ih =>
    obtain ⟨x, n⟩ := p
    rw [bump]
    by_cases h : x = w
    · subst h
      simp
    · rw [if_neg h]
      simp only [List.map_cons, ih, List.mem_cons]
      by_cases hw : w ∈ rest.map Prod.fst
      · rw [if_pos hw, if_pos (Or.inr hw)]
      · rw [if_neg hw, if_neg ?_, List.cons_append]
        intro hcontra
        rcases hcontra with h1 | h1
        · exact h h1.symm
        · exact hw h1

theorem foldl_bump_keys (ws : List (List Char)) :
    ∀ m, ((ws.foldl bump m).map Prod.fst) =
      ws.foldl (fun acc w => if w ∈ acc then acc else acc ++ [w])
        (m.map Prod.fst) := by
  induction ws with
  | nil => intro m; rfl
  | cons w ws ih =>
    intro m
    rw [List.foldl_cons, List.foldl_cons, ih, bump_keys]

theorem buildFreq_keys (ws : List (List Char)) :
    (buildFreq ws).map Prod.fst = firstEncounterOrder ws :=
  foldl_bump_keys ws []

theorem foldl_firstEnc_mem (ws : List (List Char)) :
    ∀ (acc : List (List Char)) (x : List Char),
      (x ∈ ws.foldl (fun acc w => if w ∈ acc then acc else acc ++ [w]) acc ↔
        x ∈ acc ∨ x ∈ ws) := by
  induction ws with
  | nil => intro acc x; simp
  | cons w ws ih =>
    intro acc x
    rw [List.foldl_cons, ih]
    by_cases hw : w ∈ acc
    · rw [if_pos hw]
      simp only [List.mem_cons]
      constructor
      · rintro (h | h)
        · exact Or.inl h
        · exact Or.inr (Or.inr h)
      · rintro (h | h | h)
        · exact Or.inl h
        · subst h; exact Or.inl hw
        · exact Or.inr h
    · rw [if_neg hw]
      simp only [List.mem_append, List.mem_singleton, List.mem_cons]
      tauto

theorem foldl_firstEnc_nodup (ws : List (List Char)) :
    ∀ (acc : List (List Char)), acc.Nodup →
      (ws.foldl (fun acc w => if w ∈ acc then acc else acc ++ [w]) acc).Nodup := by
  induction ws with
  | nil => intro acc h; exact h
  | cons w ws ih =>
    intro acc hacc
    rw [List.foldl_cons]
    by_cases hw : w ∈ acc
    · rw [if_pos hw]
      exact ih acc hacc
    · rw [if_neg hw]
      refine ih _ ?_
      simp [List.nodup_append, hacc, hw]

theorem firstEncounterOrder_nodup (ws : List (List Char)) :
    (firstEncounterOrder ws).Nodup :=
  foldl_firstEnc_nodup ws [] List.nodup_nil

theorem mem_firstEncounterOrder {ws : List (List Char)} {x : List Char} :
    x ∈ firstEncounterOrder ws ↔ x ∈ ws := by
  rw [firstEncounterOrder, foldl_firstEnc_mem ws [] x]
  simp

theorem buildFreq_length_eq_card (ws : List (List Char)) :
    (buildFreq ws).length = ws.toFinset.card := by
  have h1 : (buildFreq ws).length = ((buildFreq ws).map Prod.fst).length := by
    rw [List.length_map]
  rw [h1, buildFreq_keys]
  have hfs : (firstEncounterOrder ws).toFinset = ws.toFinset := by
    apply Finset.ext
    intro x
    rw [List.mem_toFinset, List.mem_toFinset, mem_firstEncounterOrder]
  rw [← hfs, List.toFinset_card_of_nodup (firstEncounterOrder_nodup ws)]

theorem buildFreq_ne_nil_of_mem {p : List Char × Nat} {ws : List (List Char)}
    (hp : p ∈ buildFreq ws) : ws ≠ [] := by
  intro h
  subst h
  cases hp

theorem toLower_of_space {c : Char} (hc : isJsSpace c = true) :
    c.toLower = c := by
  have h : ¬ (c.toNat ≥ 65 ∧ c.toNat ≤ 90) := by
    simp only [isJsSpace, Bool.or_eq_true, beq_iff_eq, Bool.and_eq_true,
      decide_eq_true_eq] at hc
    omega
  rw [Char.toLower]
  exact if_neg h

theorem all_space_of_jsTrim_eq_nil {text : List Char}
    (h : jsTrim text = []) : ∀ c ∈ text, isJsSpace c = true := by
  rw [jsTrim, List.rdropWhile_eq_nil_iff] at h
  intro c hc
  by_cases hs : isJsSpace c = true
  · exact hs
  · exact h c (mem_dropWhile_of_not hc (bool_eq_false hs))

theorem wordsOf_of_all_space {text : List Char}
    (h : ∀ c ∈ text, isJsSpace c = true) : wordsOf text = [] := by
  have hmap : text.map Char.toLower = text := by
    have := List.map_congr_left (l := text) (f := Char.toLower) (g := id)
      (fun c hc => toLower_of_space (h c hc))
    rw [this, List.map_id]
  have hfil : (text.map Char.toLower).filter
      (fun c => isWordChar c || isJsSpace c) = text := by
    rw [hmap]
    apply List.filter_eq_self.mpr
    intro c hc
    rw [h c hc, Bool.or_true]
  rw [wordsOf, hfil]
  apply List.eq_nil_iff_forall_not_mem.mpr
  intro w hw
  obtain ⟨hw1, hw2⟩ := List.mem_filter.mp hw
  have hw0 : w ∈ (jsSplitWs text).filter (fun w => decide (0 < w.length)) := by
    refine List.mem_filter.mpr ⟨hw1, ?_⟩
    simp only [decide_eq_true_eq] at hw2 ⊢
    omega
  rw [jsSplitWs_filter_eq_nonSpaceTokens, nonSpaceTokens_nil_of_all_space h]
    at hw0
  cases hw0

theorem consideredWords_of_blank {text : List Char} (flag : Bool)
    (h : jsTrim text = []) : consideredWords text flag = [] := by
  have hw := wordsOf_of_all_space (all_space_of_jsTrim_eq_nil h)
  rw [consideredWords]
  cases flag
  · simp [hw]
  · simp [hw]

theorem rawFreqs_of_blank {text : List Char} (flag : Bool)
    (h : jsTrim text = []) : rawFreqs text flag = [] := by
  rw [rawFreqs, consideredWords_of_blank flag h]
  rfl

theorem sortedFreqs_of_blank {text : List Char} (flag : Bool)
    (h : jsTrim text = []) : sortedFreqs text flag = [] := by
  rw [sortedFreqs, rawFreqs_of_blank flag h]
  rfl

theorem analyze_topWords_eq (text : List Char) (flag : Bool) :
    (analyzeRepeatedWords text flag).topWords =
      (sortedFreqs text flag).take 15 := by
  rw [analyzeRepeatedWords]
  by_cases h : jsTrim text = []
  · rw [if_pos h, sortedFreqs_of_blank flag h]
    rfl
  · rw [if_neg h]

theorem analyze_most_eq (text : List Char) (flag : Bool) :
    (analyzeRepeatedWords text flag).mostRepeatedWord =
      (sortedFreqs text flag).head? := by
  rw [analyzeRepeatedWords]
  by_cases h : jsTrim text = []
  · rw [if_pos h, sortedFreqs_of_blank flag h]
    rfl
  · rw [if_neg h]

theorem analyze_unique_eq (text : List Char) (flag : Bool) :
    (analyzeRepeatedWords text flag).totalUniqueWords =
      (buildFreq (consideredWords text flag)).length := by
  rw [analyzeRepeatedWords]
  by_cases h : jsTrim text = []
  · rw [if_pos h, consideredWords_of_blank flag h]
    rfl
  · rw [if_neg h]

theorem percentage_of_mem_sortedFreqs {text : List Char} {flag : Bool}
    {e : WordFrequency} (he : e ∈ sortedFreqs text flag) :
    e.percentage = 100 * (e.count : ℚ) /
      ((consideredWords text flag).length : ℚ) := by
  have he' : e ∈ rawFreqs text flag := mem_sortByCountDesc.mp he
  simp only [rawFreqs] at he'
  obtain ⟨p, hp, hpe⟩ := List.mem_map.mp he'
  have hne : consideredWords text flag ≠ [] := buildFreq_ne_nil_of_mem hp
  have hpos : 0 < (consideredWords text flag).length := List.length_pos.mpr hne
  rw [← hpe]
  show (if 0 < (consideredWords text flag).length then
      ((p.2 : ℚ) / ((consideredWords text flag).length : ℚ)) * 100 else 0) =
    100 * (p.2 : ℚ) / ((consideredWords text flag).length : ℚ)
  rw [if_pos hpos]
  ring

/-- C3: every frequency entry produced by `analyzeRepeatedWords`
(top-word entries and the most-repeated entry, for either flag value)
satisfies `percentage = 100 * count / totalConsideredWords`, where
`totalConsideredWords` is the number of tokens remaining after the
length filter and the optional stop-word filter, i.e. the post-filter
token count `(consideredWords text flag).length`, not the pre-filter
count. -/
theorem c3_percentage_denominator (text : List Char) (flag : Bool) :
    (∀ e ∈ (analyzeRepeatedWords text flag).topWords,
      e.percentage = 100 * (e.count : ℚ) /
        ((consideredWords text flag).length : ℚ)) ∧
    ∀ e, (analyzeRepeatedWords text flag).mostRepeatedWord = some e →
      e.percentage = 100 * (e.count : ℚ) /
        ((consideredWords text flag).length : ℚ) := by
  constructor
  · intro e he
    rw [analyze_topWords_eq] at he
    exact percentage_of_mem_sortedFreqs (List.take_subset _ _ he)
  · intro e he
    rw [analyze_most_eq] at he
    have hmem : e ∈ sortedFreqs text flag := by
      cases hl : sortedFreqs text flag with
      | nil => rw [hl] at he; cases he
      | cons a as =>
        rw [hl] at he
        rw [List.head?_cons] at he
        injection he with h
        subst h
        exact List.mem_cons_self _ _
    exact percentage_of_mem_sortedFreqs hmem

theorem considered_cat_eq :
    consideredWords ("the the cat cat cat".toList) true =
      ["cat".toList, "cat".toList, "cat".toList] := by
  decide

theorem raw_cat_eq : rawFreqs ("the the cat cat cat".toList) true =
    [{ word := "cat".toList, count := 3, percentage := 100 }] := by
  simp only [rawFreqs]
  rw [considered_cat_eq]
  rw [show buildFreq ["cat".toList, "cat".toList, "cat".toList] =
    [("cat".toList, 3)] from by decide]
  norm_num

theorem sorted_cat_eq : sortedFreqs ("the the cat cat cat".toList) true =
    [{ word := "cat".toList, count := 3, percentage := 100 }] := by
  rw [sortedFreqs, raw_cat_eq]
  rfl

theorem analyze_cat_eq :
    analyzeRepeatedWords ("the the cat cat cat".toList) true =
      { topWords := [{ word := "cat".toList, count := 3, percentage := 100 }],
        totalUniqueWords := 1,
        mostRepeatedWord :=
          some { word := "cat".toList, count := 3, percentage := 100 },
        stopWordsFiltered := true } := by
  rw [analyzeRepeatedWords,
    if_neg (by decide : ¬ jsTrim ("the the cat cat cat".toList) = []),
    sorted_cat_eq, considered_cat_eq]
  rfl

/-- Witness for C3 at `analyze("the the cat cat cat", true)`: the
single entry `cat` has `percentage = 100 * 3 / 3`. -/
theorem c3_percentage_denominator_witness :
    ({ word := "cat".toList, count := 3, percentage := 100 } :
        WordFrequency).percentage =
      100 * ((({ word := "cat".toList, count := 3, percentage := 100 } :
        WordFrequency).count : ℚ)) /
        ((consideredWords ("the the cat cat cat".toList) true).length : ℚ) :=
  (c3_percentage_denominator ("the the cat cat cat".toList) true).1
    { word := "cat".toList, count := 3, percentage := 100 }
    (by rw [analyze_cat_eq]; exact List.mem_singleton.mpr rfl)

/-- C4: `topWords` is the 15-entry prefix of the sorted sequence and is
sorted descending by count; equal counts keep their first-encountered
order (the sorted sequence filtered to one count value equals the
unsorted map-order sequence so filtered, and the map-order sequence
lists words by first encounter); `mostRepeatedWord` is the head of the
sorted sequence (absent when it is empty); `totalUniqueWords` is the
number of distinct post-filter tokens, not capped at 15. -/
theorem c4_analysis_invariants (text : List Char) (flag : Bool) :
    (analyzeRepeatedWords text flag).topWords.length ≤ 15 ∧
    (analyzeRepeatedWords text flag).topWords =
      (sortedFreqs text flag).take 15 ∧
    (analyzeRepeatedWords text flag).topWords.Pairwise
      (fun a b => b.count ≤ a.count) ∧
    (∀ k, (sortedFreqs text flag).filter (fun e => decide (e.count = k)) =
      (rawFreqs text flag).filter (fun e => decide (e.count = k))) ∧
    (rawFreqs text flag).map (fun e => e.word) =
      firstEncounterOrder (consideredWords text flag) ∧
    (analyzeRepeatedWords text flag).mostRepeatedWord =
      (sortedFreqs text flag).head? ∧
    (analyzeRepeatedWords text flag).totalUniqueWords =
      (consideredWords text flag).toFinset.card := by
  refine ⟨?_, analyze_topWords_eq text flag, ?_, ?_, ?_,
    analyze_most_eq text flag, ?_⟩
  · rw [analyze_topWords_eq]
    exact List.length_take_le _ _
  · rw [analyze_topWords_eq, sortedFreqs]
    exact List.Pairwise.sublist (List.take_sublist _ _)
      (sortByCountDesc_sorted _)
  · intro k
    rw [sortedFreqs]
    exact sortByCountDesc_filter _ k
  · simp only [rawFreqs, List.map_map]
    exact buildFreq_keys _
  · rw [analyze_unique_eq]
    exact buildFreq_length_eq_card _

/-- C9: `analyze("the the cat cat cat", filterStopWords := true)`
removes `"the"` as a stop word; the resulting analysis has exactly one
entry, `cat` with count 3 (and percentage 100), as its top word and
most repeated word, and `totalUniqueWords = 1`. -/
theorem c9_stopword_example :
    analyzeRepeatedWords ("the the cat cat cat".toList) true =
      { topWords := [{ word := "cat".toList, count := 3, percentage := 100 }],
        totalUniqueWords := 1,
        mostRepeatedWord :=
          some { word := "cat".toList, count := 3, percentage := 100 },
        stopWordsFiltered := true } :=
  analyze_cat_eq

/-- The page-text concatenation of the standard PDF extraction loop:
per page, the positioned text runs (`textContent.items`) are joined
with single spaces, and each page's text is followed by a newline. -/
def pdfFullText (pages : List (List (List Char))) : List Char :=
  pages.foldl (fun acc items => acc ++ List.intercalate [' '] items ++ ['\n']) []

/-- The single error surfaced by `extractTextFromPDF` when both the
standard extraction and the OCR fallback fail (the message about
scanned documents). -/
inductive PdfError where
  | extractionFailed
deriving Repr, DecidableEq

/-- `extractTextFromPDF` from `App.tsx`, as a function of its byte
source and of an environment giving the outcome of the standard
text-layer extraction (`load`: per-page item strings, or a throw from
`arrayBuffer`/`getDocument`/the page loop) and of `extractTextWithOCR`
(`ocr`) on any byte source.  Besides the result it returns the list of
byte sources OCR was invoked on, in invocation order.  Control flow of
the source: a throw during standard extraction lands in the outer
`catch`, which runs OCR once; insufficient text (empty or under 50
characters after trimming) runs OCR inside the `try`, and if that OCR
call throws, the outer `catch` catches it and runs OCR a second time
before giving up with `extractionFailed`. -/
def extractTextFromPDF {File : Type} (file : File)
    (load : File → Except Unit (List (List (List Char))))
    (ocr : File → Except Unit (List Char)) :
    Except PdfError (List Char) × List File :=
  match load file with
  | .error _ =>
    match ocr file with
    | .ok t => (.ok t, [file])
    | .error _ => (.error .extractionFailed, [file])
  | .ok pages =>
    let extractedText := jsTrim (pdfFullText pages)
    if extractedText = [] ∨ extractedText.length < 50 then
      match ocr file with
      | .ok t => (.ok t, [file])
      | .error _ =>
        match ocr file with
        | .ok t => (.ok t, [file, file])
        | .error _ => (.error .extractionFailed, [file, file])
    else (.ok extractedText, [])

/-- C2: the OCR fallback is invoked iff standard extraction throws or
its trimmed text is shorter than 50 characters; with 50 or more
characters of extracted text, OCR is never invoked and that text is
returned; and every OCR invocation receives the same byte source that
was given to the extractor. -/
theorem c2_ocr_fallback_rule {File : Type} (file : File)
    (load : File → Except Unit (List (List (List Char))))
    (ocr : File → Except Unit (List Char)) :
    ((extractTextFromPDF file load ocr).2 ≠ [] ↔
      (load file = .error () ∨ ∃ pages, load file = .ok pages ∧
        (jsTrim (pdfFullText pages)).length < 50)) ∧
    (∀ pages, load file = .ok pages →
      50 ≤ (jsTrim (pdfFullText pages)).length →
      (extractTextFromPDF file load ocr).2 = [] ∧
      (extractTextFromPDF file load ocr).1 = .ok (jsTrim (pdfFullText pages))) ∧
    (∀ g ∈ (extractTextFromPDF file load ocr).2, g = file) := by
  cases hl : load file with
  | error u =>
    refine ⟨⟨fun _ => Or.inl rfl, fun _ => ?_⟩, fun pages hp => ?_, ?_⟩
    · simp only [extractTextFromPDF, hl]
      cases ocr file <;> simp
    · exact absurd hp (by simp)
    · intro g hg
      simp only [extractTextFromPDF, hl] at hg
      cases ho : ocr file <;> rw [ho] at hg <;> simp at hg <;> exact hg
  | ok pages =>
    by_cases hshort : (jsTrim (pdfFullText pages)).length < 50
    · have hcond : jsTrim (pdfFullText pages) = [] ∨
          (jsTrim (pdfFullText pages)).length < 50 := Or.inr hshort
      refine ⟨⟨fun _ => Or.inr ⟨pages, rfl, hshort⟩, fun _ => ?_⟩,
        fun pages' hp' h50 => ?_, ?_⟩
      · simp only [extractTextFromPDF, hl, if_pos hcond]
        cases ocr file <;> simp
      · injection hp' with hpe
        subst hpe
        omega
      · intro g hg
        simp only [extractTextFromPDF, hl, if_pos hcond] at hg
        cases ho : ocr file <;> rw [ho] at hg <;> simp at hg <;> exact hg
    · have hne : jsTrim (pdfFullText pages) ≠ [] := by
        intro h0
        rw [h0] at hshort
        simp at hshort
      have hcond : ¬ (jsTrim (pdfFullText pages) = [] ∨
          (jsTrim (pdfFullText pages)).length < 50) := by
        intro h
        rcases h with h | h
        · exact hne h
        · exact hshort h
      refine ⟨⟨fun hocr => ?_, fun hdone => ?_⟩, fun pages' hp' h50 => ?_, ?_⟩
      · exfalso
        apply hocr
        simp only [extractTextFromPDF, hl, if_neg hcond]
      · exfalso
        rcases hdone with h | ⟨pages', hp', hlt⟩
        · exact absurd h (by simp)
        · injection hp' with hpe
          subst hpe
          exact hshort hlt
      · injection hp' with hpe
        subst hpe
        constructor
        · simp only [extractTextFromPDF, hl, if_neg hcond]
        · simp only [extractTextFromPDF, hl, if_neg hcond]
      · intro g hg
        simp only [extractTextFromPDF, hl, if_neg hcond] at hg
        cases hg

/-- Witness for C2: a one-page PDF whose single text run has 60
characters; the extractor returns the trimmed text and never invokes
OCR. -/
theorem c2_ocr_fallback_rule_witness :
    (extractTextFromPDF () (fun _ => .ok [[List.replicate 60 'a']])
        (fun _ => .ok [])).2 = [] ∧
    (extractTextFromPDF () (fun _ => .ok [[List.replicate 60 'a']])
        (fun _ => .ok [])).1 =
      .ok (jsTrim (pdfFullText [[List.replicate 60 'a']])) :=
  (c2_ocr_fallback_rule () (fun _ => .ok [[List.replicate 60 'a']])
    (fun _ => .ok [])).2.1 [[List.replicate 60 'a']] rfl (by decide)

/-- Observable resource actions of one `extractTextWithOCR` run:
creation of the Tesseract worker, processing of one page (render plus
`worker.recognize`), and `worker.terminate()`. -/
inductive OcrAction where
  | acquireWorker
  | processPage (i : Nat)
  | terminateWorker
deriving Repr, DecidableEq

/-- The observable outcome of one `extractTextWithOCR` run: the result
(or raised error), the successive values passed to `setOcrProgress`,
and the resource-action trace. -/
structure OcrRun where
  result : Except Unit (List Char)
  progress : List ℚ
  actions : List OcrAction
deriving Repr

/-- `extractTextWithOCR` from `App.tsx`, over an environment giving
the PDF-open outcome (`load`, the page count or a throw), whether
`createWorker` succeeds (`workerOk`), each page's recognition outcome
(`pageText i`, with `.error` for a per-page throw that the inner
`catch` absorbs), and the fractional progress values the Tesseract
logger reports with status `recognizing text` while page `i` is
recognized (`pageEvents i`, values in `[0,1]`).

Per the source: `setOcrProgress(0)` on entry; per page `i`,
`setOcrProgress((i-1)/totalPages * 80)` and then each logger value `p`
as `setOcrProgress(p * 100)`; page text that is non-empty after
trimming is appended to the accumulator followed by a blank line;
after the loop `setOcrProgress(100)`, `worker.terminate()`, and the
trimmed accumulator is returned; the `finally` block then runs
`setOcrProgress(0)`.  A throw before the worker exists (PDF open or
worker creation) reaches the outer `catch` and re-raises; the
`finally` still runs. -/
def extractTextWithOCR (load : Except Unit Nat) (workerOk : Bool)
    (pageText : Nat → Except Unit (List Char))
    (pageEvents : Nat → List ℚ) : OcrRun :=
  match load with
  | .error _ => { result := .error (), progress := [0, 0], actions := [] }
  | .ok totalPages =>
    if workerOk then
      let pages := List.range' 1 totalPages
      let events := pages.flatMap (fun i =>
        ((i - 1 : Nat) : ℚ) / (totalPages : ℚ) * 80 ::
          (pageEvents i).map (fun p => p * 100))
      let fullText := pages.foldl (fun acc i =>
        match pageText i with
        | .ok t => if jsTrim t ≠ [] then acc ++ jsTrim t ++ ['\n', '\n'] else acc
        | .error _ => acc) []
      { result := .ok (jsTrim fullText)
        progress := 0 :: events ++ [100, 0]
        actions := [.acquireWorker] ++ pages.map .processPage ++
          [.terminateWorker] }
    else { result := .error (), progress := [0, 0], actions := [] }

/-- C7: whenever the recognition worker was acquired during an
`extractTextWithOCR` run — normal completion or runs with per-page
failures alike — the last resource action before the run returns is
the worker's termination. -/
theorem c7_worker_always_released (load : Except Unit Nat)
    (workerOk : Bool) (pageText : Nat → Except Unit (List Char))
    (pageEvents : Nat → List ℚ) :
    OcrAction.acquireWorker ∈
        (extractTextWithOCR load workerOk pageText pageEvents).actions →
      (extractTextWithOCR load workerOk pageText pageEvents).actions.getLast? =
        some OcrAction.terminateWorker := by
  intro hacq
  cases load with
  | error u =>
    simp only [extractTextWithOCR] at hacq
    cases hacq
  | ok totalPages =>
    cases hw : workerOk with
    | false =>
      simp only [extractTextWithOCR, hw] at hacq
      cases hacq
    | true =>
      simp only [extractTextWithOCR, hw, if_true]
      rw [List.getLast?_concat]

/-- Witness for C7: a two-page PDF on which every page's recognition
throws; the worker is still terminated last. -/
theorem c7_worker_always_released_witness :
    (extractTextWithOCR (.ok 2) true (fun _ => .error ())
        (fun _ => [])).actions.getLast? = some OcrAction.terminateWorker :=
  c7_worker_always_released (.ok 2) true (fun _ => .error ()) (fun _ => [])
    (by decide)

/-- The logger events of the C6 failing input: during page 1 the
recognition engine reports fractional progress `1.0` (a completed
recognition pass); page 2 reports nothing. -/
def c6PageEvents (i : Nat) : List ℚ :=
  if i = 1 then [1] else []

/-- C6 evaluated at a failing input: on a two-page PDF whose first
page's recognition reports fractional progress `1.0`, the observable
progress sequence is `[0, 0, 100, 40, 100, 0]` — the logger callback
`setOcrProgress(m.progress * 100)` rescales a *single page's* progress
to the whole bar, so the value jumps to 100 during page 1 and then
falls back to 40 (`(2-1)/2*80`) when page 2 starts (and the `finally`
block finishes by resetting it to 0).  The sequence is not
monotonically non-decreasing, contradicting the claim; the spec's
80%-calibrated page ramp is clearly the intent and the logger rescale
is the slip. -/
theorem c6_progress_not_monotone :
    (extractTextWithOCR (.ok 2) true (fun _ => .ok ['x'])
        c6PageEvents).progress = [0, 0, 100, 40, 100, 0] ∧
    ¬ List.Chain' (· ≤ ·)
      (extractTextWithOCR (.ok 2) true (fun _ => .ok ['x'])
        c6PageEvents).progress := by
  have hp : (extractTextWithOCR (.ok 2) true (fun _ => .ok ['x'])
      c6PageEvents).progress = [0, 0, 100, 40, 100, 0] := by
    simp only [extractTextWithOCR, if_true]
    norm_num [List.range', List.flatMap, c6PageEvents]
  refine ⟨hp, ?_⟩
  rw [hp]
  intro h
  simp only [List.chain'_cons, List.chain'_singleton] at h
  obtain ⟨-, -, h3, -⟩ := h
  norm_num at h3

/-- First cleanup step of `parseHTML`: `replace(/\s+/g, ' ')` — every
maximal whitespace run becomes a single space. -/
def collapseWsRuns : List Char → List Char
  | [] => []
  | [c] => if isJsSpace c then [' '] else [c]
  | c :: d :: rest =>
    if isJsSpace c then
      if isJsSpace d then collapseWsRuns (d :: rest)
      else ' ' :: collapseWsRuns (d :: rest)
    else c :: collapseWsRuns (d :: rest)

/-- Index of the last newline in a list, if any. -/
def lastNlIdx (l : List Char) : Option Nat :=
  match l with
  | [] => none
  | c :: rest =>
    match lastNlIdx rest with
    | some k => some (k + 1)
    | none => if c = '\n' then some 0 else none

/-- Second cleanup step of `parseHTML`: `replace(/\n\s*\n/g, '\n')`,
scanning left to right.  At a `'\n'`, the greedy `\s*` plus the final
`\n` of the pattern consume up to (and including) the last newline of
the following whitespace run; the match is replaced by one `'\n'` and
scanning resumes after it.  With no such newline (or at any other
character) the character is kept and scanning advances by one.  The
recursion consumes at least one character per step, so the list length
is a sufficient fuel; the fuel-exhausted branch (returning the rest
unscanned) is never reached. -/
def collapseBlankLinesGo : Nat → List Char → List Char
  | _, [] => []
  | 0, l => l
  | fuel + 1, c :: rest =>
    if c = '\n' then
      match lastNlIdx (rest.takeWhile isJsSpace) with
      | some k => '\n' :: collapseBlankLinesGo fuel (rest.drop (k + 1))
      | none => c :: collapseBlankLinesGo fuel rest
    else c :: collapseBlankLinesGo fuel rest

def collapseBlankLines (l : List Char) : List Char :=
  collapseBlankLinesGo l.length l

/-- The text cleanup of `parseHTML`: collapse whitespace runs to
single spaces, collapse blank-line runs to single newlines, trim. -/
def cleanupText (t : List Char) : List Char :=
  jsTrim (collapseBlankLines (collapseWsRuns t))

/-- `parseHTML` from `App.tsx`, over an environment function
`extractBody` modelling the DOM steps: parse the HTML, remove the
non-content elements (`script`, `style`, `head`, …) and take
`body.textContent` (`none` models the `'No body content'` throw,
unreachable with a real `DOMParser` in `text/html` mode, which always
supplies a body).  The cleaned-up text is returned unless it is empty,
which raises the `'No readable text content'` error (`none`). -/
def parseHTML (extractBody : List Char → Option (List Char))
    (html : List Char) : Option (List Char) :=
  match extractBody html with
  | none => none
  | some b =>
    let text := cleanupText b
    if text = [] then none else some text

theorem mem_collapseWsRuns {l : List Char} :
    ∀ c ∈ collapseWsRuns l, c = ' ' ∨ isJsSpace c = false := by
  induction l with
  | nil => intro c hc; cases hc
  | cons a rest ih =>
    cases rest with
    | nil =>
      intro c hc
      rw [collapseWsRuns.eq_def] at hc
      by_cases ha : isJsSpace a = true
      · simp only [ha, if_true] at hc
        rcases List.mem_singleton.mp hc with h
        exact Or.inl h
      · simp only [ha, if_false] at hc
        rcases List.mem_singleton.mp hc with h
        subst h
        exact Or.inr (bool_eq_false ha)
    | cons d r =>
      intro c hc
      rw [collapseWsRuns.eq_def] at hc
      by_cases ha : isJsSpace a = true
      · by_cases hd : isJsSpace d = true
        · simp only [ha, hd, if_true] at hc
          exact ih c hc
        · simp only [ha, hd, if_true, if_false] at hc
          rcases List.mem_cons.mp hc with h | h
          · exact Or.inl h
          · exact ih c h
      · simp only [ha, if_false] at hc
        rcases List.mem_cons.mp hc with h | h
        · subst h
          exact Or.inr (bool_eq_false ha)
        · exact ih c h

theorem newline_not_mem_collapseWsRuns {l : List Char} :
    '\n' ∉ collapseWsRuns l := by
  intro h
  rcases mem_collapseWsRuns '\n' h with h1 | h1
  · cases h1
  · rw [show isJsSpace '\n' = true from rfl] at h1
    cases h1

theorem collapseBlankLinesGo_of_no_newline :
    ∀ (fuel : Nat) (l : List Char), '\n' ∉ l →
      collapseBlankLinesGo fuel l = l := by
  intro fuel
  induction fuel with
  | zero =>
    intro l _
    cases l with
    | nil => rfl
    | cons c rest => rfl
  | succ fuel ih =>
    intro l hl
    cases l with
    | nil => rfl
    | cons c rest =>
      have hc : ¬ c = '\n' := fun h => hl (h ▸ List.mem_cons_self c rest)
      rw [collapseBlankLinesGo, if_neg hc]
      rw [ih rest (fun h => hl (List.mem_cons_of_mem c h))]

theorem collapseBlankLines_of_no_newline {l : List Char}
    (hl : '\n' ∉ l) : collapseBlankLines l = l :=
  collapseBlankLinesGo_of_no_newline l.length l hl

theorem newline_not_mem_jsTrim {l : List Char} (h : '\n' ∉ l) :
    '\n' ∉ jsTrim l := by
  intro hmem
  apply h
  rw [jsTrim] at hmem
  exact (l.dropWhile_subset isJsSpace)
    ((List.rdropWhile_prefix isJsSpace (l.dropWhile isJsSpace)).subset hmem)

/-- C10: the whitespace-run collapse leaves no newline in the text, so
the blank-line collapse `replace(/\n\s*\n/g, '\n')` is the identity on
its input, and any text successfully returned by `parseHTML` contains
no newline — the reducer's output is always a single line. -/
theorem c10_reduced_text_single_line :
    (∀ b : List Char,
      collapseBlankLines (collapseWsRuns b) = collapseWsRuns b) ∧
    ∀ (extractBody : List Char → Option (List Char)) (html t : List Char),
      parseHTML extractBody html = some t → '\n' ∉ t := by
  constructor
  · intro b
    exact collapseBlankLines_of_no_newline newline_not_mem_collapseWsRuns
  · intro extractBody html t hparse
    rw [parseHTML] at hparse
    cases hb : extractBody html with
    | none => rw [hb] at hparse; cases hparse
    | some b =>
      rw [hb] at hparse
      simp only at hparse
      by_cases hempty : cleanupText b = []
      · rw [if_pos hempty] at hparse
        cases hparse
      · rw [if_neg hempty] at hparse
        injection hparse with ht
        subst ht
        rw [cleanupText,
          collapseBlankLines_of_no_newline newline_not_mem_collapseWsRuns]
        exact newline_not_mem_jsTrim newline_not_mem_collapseWsRuns

/-- Witness for C10: reducing body text `"a\nb"` yields `"a b"`, which
contains no newline. -/
theorem c10_reduced_text_single_line_witness :
    '\n' ∉ ("a b".toList) :=
  c10_reduced_text_single_line.2 (fun h => some h) ("a\nb".toList)
    ("a b".toList) (by decide)

/-- The transports of `extractTextFromWebpage`, in the order the
source tries them: the serverless relay (`/api/fetch-content`), a
direct fetch, then the ten proxy services of the `proxyServices`
array, in array order. -/
inductive Transport where
  | relay
  | direct
  | proxy (i : Fin 10)
deriving Repr, DecidableEq

/-- Outcome of the serverless-relay attempt: the fetch threw, the
response was not 2xx, or it was 2xx with a JSON body whose `content`
field is the given string (the empty string also models an absent
field — both are falsy and fall through to the next transport). -/
inductive RelayOutcome where
  | netErr
  | notOk
  | okJson (content : List Char)

/-- Outcome of the direct-fetch attempt. -/
inductive DirectOutcome where
  | netErr
  | notOk
  | ok (html : List Char)

/-- Outcome of one proxy attempt, after the provider-specific envelope
handling: `err` covers a thrown fetch, a timeout, a non-2xx status and
an envelope-unwrap failure; `ok body` is the unwrapped response body.
The 50-character floor and the HTML-marker validation that the source
applies to the unwrapped body are modelled concretely below. -/
inductive ProxyOutcome where
  | err
  | ok (body : List Char)

/-- The network/DOM environment of one `extractTextFromWebpage` call. -/
structure FetchEnv where
  relay : RelayOutcome
  direct : DirectOutcome
  proxies : Fin 10 → ProxyOutcome
  extractBody : List Char → Option (List Char)

/-- `String.prototype.includes` on character lists. -/
def containsSub (pat : List Char) : List Char → Bool
  | [] => pat.isPrefixOf []
  | c :: rest => pat.isPrefixOf (c :: rest) || containsSub pat rest

/-- The source's HTML sanity check on a proxy body:
`html.includes('<html') || html.includes('<body') || html.includes('<div')`. -/
def hasHtmlMarkers (l : List Char) : Bool :=
  containsSub ("<html".toList) l || containsSub ("<body".toList) l ||
    containsSub ("<div".toList) l

/-- The proxy loop, from a given suffix of the service list: each
attempt either throws (advancing the chain), fails the emptiness/
50-character/marker validation (throwing, hence advancing), or hands
its body to `parseHTML`, whose own throw is also caught by the loop's
`catch` and advances the chain.  After the last service the composite
all-proxies-failed error is thrown.  Returns the result and the list
of proxies attempted. -/
def tryProxies (env : FetchEnv) :
    List (Fin 10) → Except Unit (List Char) × List Transport
  | [] => (.error (), [])
  | i :: rest =>
    let attempt :=
      match env.proxies i with
      | .err => none
      | .ok body =>
        if body = [] ∨ (jsTrim body).length < 50 then none
        else if hasHtmlMarkers body = false then none
        else parseHTML env.extractBody body
    match attempt with
    | some t => (.ok t, [.proxy i])
    | none =>
      let r := tryProxies env rest
      (r.1, .proxy i :: r.2)

/-- The direct-fetch stage and everything after it: on a 2xx response
the body goes to `parseHTML`; a throw there is caught by the stage's
`catch` and the proxies are tried. -/
def tryDirect (env : FetchEnv) : Except Unit (List Char) × List Transport :=
  match env.direct with
  | .ok html =>
    match parseHTML env.extractBody html with
    | some t => (.ok t, [.direct])
    | none =>
      let r := tryProxies env (List.finRange 10)
      (r.1, .direct :: r.2)
  | _ =>
    let r := tryProxies env (List.finRange 10)
    (r.1, .direct :: r.2)

/-- `extractTextFromWebpage` from `App.tsx` (URL validation happens in
the caller `handleUrlSubmit` and is not part of this function): the
serverless relay is tried first; a 2xx response with truthy `content`
goes to `parseHTML`, whose throw is caught by the relay stage's inner
`catch` and advances the chain; any other relay outcome also advances.
Returns the result (the outer `catch` only rewords error messages) and
the ordered list of transports attempted. -/
def extractTextFromWebpage (env : FetchEnv) :
    Except Unit (List Char) × List Transport :=
  match env.relay with
  | .okJson content =>
    if content = [] then
      let r := tryDirect env
      (r.1, .relay :: r.2)
    else
      match parseHTML env.extractBody content with
      | some t => (.ok t, [.relay])
      | none =>
        let r := tryDirect env
        (r.1, .relay :: r.2)
  | _ =>
    let r := tryDirect env
    (r.1, .relay :: r.2)

/-- The fixed order in which transports can be attempted. -/
def canonicalTransportOrder : List Transport :=
  .relay :: .direct :: (List.finRange 10).map .proxy

theorem tryProxies_trace_ordered (env : FetchEnv) :
    ∀ idxs : List (Fin 10),
      (tryProxies env idxs).2 <+: idxs.map Transport.proxy := by
  intro idxs
  induction idxs with
  | nil => exact ⟨[], rfl⟩
  | cons i rest ih =>
    rw [tryProxies]
    cases hatt : (match env.proxies i with
      | .err => none
      | .ok body =>
        if body = [] ∨ (jsTrim body).length < 50 then none
        else if hasHtmlMarkers body = false then none
        else parseHTML env.extractBody body : Option (List Char)) with
    | some t =>
      exact ⟨rest.map Transport.proxy, rfl⟩
    | none =>
      obtain ⟨tail, htail⟩ := ih
      exact ⟨tail, by rw [List.map_cons, List.cons_append, htail]⟩

theorem tryDirect_trace_ordered (env : FetchEnv) :
    (tryDirect env).2 <+:
      Transport.direct :: (List.finRange 10).map Transport.proxy := by
  cases hd : env.direct with
  | ok html =>
    cases hp : parseHTML env.extractBody html with
    | some t =>
      simp only [tryDirect, hd, hp]
      exact ⟨(List.finRange 10).map Transport.proxy, rfl⟩
    | none =>
      simp only [tryDirect, hd, hp]
      obtain ⟨tail, htail⟩ := tryProxies_trace_ordered env (List.finRange 10)
      exact ⟨tail, by rw [List.cons_append, htail]⟩
  | netErr =>
    simp only [tryDirect, hd]
    obtain ⟨tail, htail⟩ := tryProxies_trace_ordered env (List.finRange 10)
    exact ⟨tail, by rw [List.cons_append, htail]⟩
  | notOk =>
    simp only [tryDirect, hd]
    obtain ⟨tail, htail⟩ := tryProxies_trace_ordered env (List.finRange 10)
    exact ⟨tail, by rw [List.cons_append, htail]⟩

theorem extractTextFromWebpage_trace_ordered (env : FetchEnv) :
    (extractTextFromWebpage env).2 <+: canonicalTransportOrder := by
  have hrest : ∀ r : Except Unit (List Char) × List Transport,
      r.2 <+: Transport.direct :: (List.finRange 10).map Transport.proxy →
      (Transport.relay :: r.2) <+: canonicalTransportOrder := by
    intro r hpre
    obtain ⟨tail, htail⟩ := hpre
    exact ⟨tail, by rw [canonicalTransportOrder, List.cons_append, htail]⟩
  cases hr : env.relay with
  | okJson content =>
    by_cases hc : content = []
    · simp only [extractTextFromWebpage, hr, if_pos hc]
      exact hrest _ (tryDirect_trace_ordered env)
    · simp only [extractTextFromWebpage, hr, if_neg hc]
      cases hp : parseHTML env.extractBody content with
      | some t =>
        simp only [hp]
        exact ⟨Transport.direct :: (List.finRange 10).map Transport.proxy,
          rfl⟩
      | none =>
        simp only [hp]
        exact hrest _ (tryDirect_trace_ordered env)
  | netErr =>
    simp only [extractTextFromWebpage, hr]
    exact hrest _ (tryDirect_trace_ordered env)
  | notOk =>
    simp only [extractTextFromWebpage, hr]
    exact hrest _ (tryDirect_trace_ordered env)

/-- C5 (amended): in one `extractTextFromWebpage` call the attempted
transports form a prefix of the fixed order relay, direct,
proxy 0 … proxy 9 — so each transport is attempted at most once and in
order — and if the relay returns non-empty content *whose HTML
reduction succeeds*, the call returns that reduced text with the relay
as the only attempted transport. -/
theorem c5_transport_chain (env : FetchEnv) :
    (extractTextFromWebpage env).2.Nodup ∧
    (extractTextFromWebpage env).2 <+: canonicalTransportOrder ∧
    ∀ content t, env.relay = RelayOutcome.okJson content → content ≠ [] →
      parseHTML env.extractBody content = some t →
      extractTextFromWebpage env = (.ok t, [.relay]) := by
  refine ⟨?_, extractTextFromWebpage_trace_ordered env, ?_⟩
  · exact List.Nodup.sublist
      (extractTextFromWebpage_trace_ordered env).sublist (by decide)
  · intro content t hrelay hne hparse
    simp only [extractTextFromWebpage, hrelay, if_neg hne, hparse]

/-- Environment for the C5 witness: the relay supplies content whose
reduction succeeds. -/
def c5WitnessEnv : FetchEnv :=
  { relay := .okJson ("hi".toList)
    direct := .netErr
    proxies := fun _ => .err
    extractBody := fun h => some h }

/-- Witness for amended C5: the relay's content is reduced and
returned with no other transport attempted. -/
theorem c5_transport_chain_witness :
    extractTextFromWebpage c5WitnessEnv = (.ok ("hi".toList), [.relay]) :=
  (c5_transport_chain c5WitnessEnv).2.2 ("hi".toList) ("hi".toList) rfl
    (by decide) (by decide)

/-- Environment refuting the original C5 wording: the relay responds
2xx with non-empty content `"<script>x</script>"`, but the DOM body
text after removing the `script` element is empty, so `parseHTML`
throws, the relay stage's `catch` swallows the error, and the chain
advances. -/
def c5CounterEnv : FetchEnv :=
  { relay := .okJson ("<script>x</script>".toList)
    direct := .netErr
    proxies := fun _ => .err
    extractBody := fun _ => some [] }

/-- C5 counterexample: the relay transport returns non-empty content,
yet the direct transport is attempted as well, contradicting the claim
that non-empty relay content stops the chain. -/
theorem c5_counterexample :
    (∃ content, c5CounterEnv.relay = RelayOutcome.okJson content ∧
      content ≠ []) ∧
    Transport.direct ∈ (extractTextFromWebpage c5CounterEnv).2 := by
  refine ⟨⟨"<script>x</script>".toList, rfl, by decide⟩, ?_⟩
  decide
